import Mathlib

/-!
Verification of the directory-semantics emulation layer of the cftp
S3 ftp client (`cftp/s3.py`, class `S3FtpClient`).

The storage model: an S3 bucket is a flat list of objects, each a key
(string) and a size (natural number).  `boto3`'s
`s3Bucket.objects.filter(Prefix=p)` is modelled by filtering the bucket
for keys having `p` as an initial segment.  Python strings are modelled
by Lean `String` whose `data` field (a `List Char`) carries all the
string algorithms, so every definition is executable and kernel-reducible.
Python string comparison is code-point lexicographic; `lexLe` below is
the same order on `List Char`.  Python's `list.sort()` on strings is
modelled by insertion sort under that order (the sorted output of any
correct sort coincides, since the order is total and antisymmetric on
strings).

Fallible methods (those that `raise`) return `Except S3Err`; an error
result models the Python exception being raised before any storage
mutation, hence "the state is unchanged" on an error.
-/

namespace Cftp

/-! ## Character-list string primitives -/

/-- `leadsIn p s` : the list `p` is an initial segment of `s`
(models `boto3`'s `Prefix=` matching and Python's `str.startswith`). -/
def leadsIn : List Char → List Char → Bool
  | [], _ => true
  | _ :: _, [] => false
  | a :: as, b :: bs => a == b && leadsIn as bs

/-- Python `s.lstrip('/')`: drop every leading `'/'`. -/
def lstripSlash (l : List Char) : List Char := l.dropWhile (fun c => c == '/')

/-- Python `s.rstrip('/')`: drop every trailing `'/'`. -/
def rstripSlash : List Char → List Char
  | [] => []
  | c :: cs =>
    match rstripSlash cs with
    | [] => if c = '/' then [] else [c]
    | r => c :: r

/-- Python `s.split('/')` (always returns at least one component). -/
def splitSep : List Char → List (List Char)
  | [] => [[]]
  | c :: rest =>
    if c = '/' then [] :: splitSep rest
    else
      match splitSep rest with
      | [] => [[c]]
      | h :: t => (c :: h) :: t

/-- Python `'/'.join(comps)`. -/
def joinSep : List (List Char) → List Char
  | [] => []
  | [c] => c
  | c :: cs => c ++ '/' :: joinSep cs

/-- The component `".."`. -/
def ddot : List Char := ['.', '.']

/-- The component loop of CPython's `posixpath.normpath`: starting from
accumulator `acc`, process the split components, skipping empty and `"."`
components, appending ordinary components, and resolving `".."` by
popping (except leading `".."` runs of a relative path, which are kept,
and `".."` at the root of an absolute path, which is dropped). -/
def normComps (isl : Nat) : List (List Char) → List (List Char) → List (List Char)
  | acc, [] => acc
  | acc, c :: cs =>
    if c = [] ∨ c = ['.'] then normComps isl acc cs
    else if c ≠ ddot ∨ (isl = 0 ∧ acc = []) ∨ acc.getLast? = some ddot then
      normComps isl (acc ++ [c]) cs
    else if acc ≠ [] then normComps isl acc.dropLast cs
    else normComps isl acc cs

/-- `".."`-components appear only as a leading run (the shape
`posixpath.normpath` produces for a relative path: kept `".."`s first,
then components none of which is `".."`). -/
def dotsLead : List (List Char) → Bool
  | [] => true
  | c :: cs => if c = ddot then dotsLead cs else cs.all (fun x => !(x == ddot))

/-- CPython `posixpath.normpath`'s count of initial slashes kept in the
output (`1` for an absolute path, `2` for exactly two leading slashes,
`0` otherwise). -/
def initSlashes (p : List Char) : Nat :=
  if leadsIn ['/', '/', '/'] p then 1
  else if leadsIn ['/', '/'] p then 2
  else if leadsIn ['/'] p then 1
  else 0

/-- CPython `posixpath.normpath` on character lists. -/
def normpath (p : List Char) : List Char :=
  if p = [] then ['.']
  else
    let isl := initSlashes p
    let comps := normComps isl [] (splitSep p)
    let joined := List.replicate isl '/' ++ joinSep comps
    if joined = [] then ['.'] else joined

/-- `.replace('\\', '/')` applied character-wise (posix `normpath` treats
a backslash as an ordinary character, so `s3.py` replaces them after). -/
def replaceBack (l : List Char) : List Char :=
  l.map (fun c => if c = '\\' then '/' else c)

/-- Python `s.replace(pat, '', 1)`: remove the first occurrence of `pat`. -/
def dropFirstOcc (pat : List Char) : List Char → List Char
  | [] => []
  | c :: cs =>
    if leadsIn pat (c :: cs) then (c :: cs).drop pat.length
    else c :: dropFirstOcc pat cs

/-- Python `s.split('/')[0]`: the first `'/'`-separated component. -/
def firstComp (l : List Char) : List Char := l.takeWhile (fun c => !(c == '/'))

/-! ## Code-point lexicographic string order (Python string comparison) -/

/-- Code-point lexicographic `≤` on character lists, the order Python uses
to compare and sort `str` values. -/
def lexLe : List Char → List Char → Bool
  | [], _ => true
  | _ :: _, [] => false
  | a :: as, b :: bs => if a = b then lexLe as bs else decide (a < b)

/-- Python string `≤` (code-point lexicographic). -/
def strLe (a b : String) : Bool := lexLe a.data b.data

/-- Insert into a `strLe`-sorted list of strings. -/
def insertKey (s : String) : List String → List String
  | [] => [s]
  | t :: ts => if strLe s t then s :: t :: ts else t :: insertKey s ts

/-- Python `list.sort()` on a list of strings (any correct sort under the
total antisymmetric order `strLe` produces this list). -/
def sortKeys : List String → List String
  | [] => []
  | s :: ss => insertKey s (sortKeys ss)

/-- Distinct elements of a list: models building a Python `set` from the
listing (each value kept once; the callers sort afterwards, so which
occurrence survives is immaterial). -/
def dedupKeep : List String → List String
  | [] => []
  | s :: ss => if ss.contains s then dedupKeep ss else s :: dedupKeep ss

/-! ## The storage model -/

/-- An S3 object summary: its key and its size in bytes. -/
structure S3Object where
  key : String
  size : Nat
  deriving DecidableEq

/-- A bucket: the flat collection of stored objects. -/
abbrev Bucket := List S3Object

/-- `s3Bucket.objects.filter(Prefix=p)`: the objects whose key starts
with `p`, in bucket order. -/
def s3All (b : Bucket) (p : String) : List S3Object :=
  b.filter (fun o => leadsIn p.data o.key.data)

/-- The error taxonomy raised by the `S3FtpClient` methods
(`s3_exceptions.py`), plus `badIndex` modelling a Python `IndexError`
escaping from a string or list subscript. -/
inductive S3Err where
  | noSuchBucket
  | noSuchDir
  | noSuchObject
  | noSuchFile
  | isADir
  | objExists
  | dirNotEmpty
  | badIndex
  | storage
  deriving DecidableEq

deriving instance DecidableEq for Except

/-! ## ObjectClassifier (`S3FtpClient.IsDir`, `IsFile`, `DirEmpty`) -/

/-- `S3FtpClient.IsDir`: list keys with prefix `loc`, sort them; the root
(`""`, or `"/"` over an empty listing) is a directory; otherwise `loc` is
a directory iff the lexicographically first matching key equals `loc` and
ends in `'/'`, or equals `loc ++ "/"`.  (Python's `objs[0][-1]` would
raise on an empty first key; a key extending a nonempty `loc` is never
empty, and for `loc = ""` the root branch answers first, so the model
returns `false` there instead.) -/
def IsDir (b : Bucket) (loc : String) : Bool :=
  let objs := sortKeys ((s3All b loc).map S3Object.key)
  if loc = "" ∨ (objs = [] ∧ loc = "/") then true
  else
    match objs with
    | [] => false
    | k :: _ => decide ((loc = k ∧ k.data.getLast? = some '/') ∨ loc ++ "/" = k)

/-- `S3FtpClient.IsFile`: `loc` is a file iff the prefix listing of `loc`
holds exactly one object and its size is nonzero. -/
def IsFile (b : Bucket) (loc : String) : Bool :=
  match (s3All b loc).map S3Object.size with
  | [s] => decide (0 < s)
  | _ => false

/-- `S3FtpClient.DirEmpty`: requires `IsDir`; the directory is empty iff
its prefix listing holds exactly one object (the marker) of size zero. -/
def DirEmpty (b : Bucket) (loc : String) : Except S3Err Bool :=
  if IsDir b loc then
    match (s3All b loc).map S3Object.size with
    | [s] => .ok (decide (s = 0))
    | _ => .ok false
  else .error .noSuchDir

/-! ## PathNormalizer (`S3FtpClient.AbsolutePath`) -/

/-- `S3FtpClient.AbsolutePath`: normalize `f` against the remote working
directory `cwd`.  Python first evaluates `f[0]`, which raises `IndexError`
on the empty string: that is the `none` result.  A relative `f` with a
nonempty `cwd` is prefixed by `cwd ++ "/"`; otherwise leading and
trailing slashes are stripped; then `posixpath.normpath` runs, backslashes
become slashes, and a resulting `"."` becomes the root `""`. -/
def AbsolutePath (cwd f : String) : Option String :=
  match f.data with
  | [] => none
  | c :: _ =>
    let remotePath :=
      if c ≠ '/' ∧ cwd.data ≠ [] then cwd.data ++ '/' :: rstripSlash f.data
      else rstripSlash (lstripSlash f.data)
    let r := replaceBack (normpath remotePath)
    some (String.mk (if r = ['.'] then [] else r))

/-! ## DirectoryOpSequencer (`mkdir`, `delete`, `rmdir`, `ls`) -/

/-- `put_object(Key=k)` / `upload_file` to key `k` with `n` bytes:
overwrite any object of the same key. -/
def putObj (b : Bucket) (k : String) (n : Nat) : Bucket :=
  b.filter (fun o => !(o.key == k)) ++ [⟨k, n⟩]

/-- `S3FtpClient.mkdir`: refuse if the normalized target is a directory
or a file; otherwise create the zero-size marker object at `rp ++ "/"`. -/
def mkdir (b : Bucket) (cwd dirName : String) : Except S3Err Bucket :=
  match AbsolutePath cwd dirName with
  | none => .error .badIndex
  | some rp =>
    if !(IsDir b rp) && !(IsFile b rp) then .ok (putObj b (rp ++ "/") 0)
    else .error .objExists

/-- `S3FtpClient.delete`: if the normalized target is a file, delete the
first nonzero-size object of its prefix listing; a directory raises
`IsADirectory`; otherwise `NoSuchObject`. -/
def delete (b : Bucket) (cwd fileName : String) : Except S3Err Bucket :=
  match AbsolutePath cwd fileName with
  | none => .error .badIndex
  | some rp =>
    if IsFile b rp then
      match (s3All b rp).filter (fun o => decide (0 < o.size)) with
      | [] => .error .badIndex
      | o :: _ => .ok (b.filter (fun x => !(x.key == o.key)))
    else if IsDir b rp then .error .isADir
    else .error .noSuchObject

/-- `S3FtpClient.rmdir`: the normalized target must be a directory and
empty; then the first (sole) object of its prefix listing — the marker —
is deleted.  A non-directory raises `NoSuchDir`, a nonempty directory
`DirNotEmpty`. -/
def rmdir (b : Bucket) (cwd dirName : String) : Except S3Err Bucket :=
  match AbsolutePath cwd dirName with
  | none => .error .badIndex
  | some rp =>
    if IsDir b rp then
      match DirEmpty b rp with
      | .error e => .error e
      | .ok true =>
        match s3All b rp with
        | [] => .error .badIndex
        | o :: _ => .ok (b.filter (fun x => !(x.key == o.key)))
      | .ok false => .error .dirNotEmpty
    else .error .noSuchDir

/-- `S3FtpClient.ls`: list the objects whose key has the working
directory as a (plain string) prefix; with a nonempty working directory
each key has the first occurrence of `cwd ++ "/"` removed, at the root
each key is cut to its first `'/'`-component; the values are collected
into a set (deduplicated); an empty set raises `NoSuchDir`; the empty
string is discarded, every survivor has trailing slashes stripped, and
the result is sorted. -/
def ls (b : Bucket) (cwd : String) : Except S3Err (List String) :=
  let objs :=
    if cwd = "" then
      dedupKeep ((s3All b cwd).map (fun o => String.mk (firstComp o.key.data)))
    else
      dedupKeep ((s3All b cwd).map
        (fun o => String.mk (dropFirstOcc (cwd.data ++ ['/']) o.key.data)))
  if objs = [] then .error .noSuchDir
  else
    .ok (sortKeys ((objs.filter (fun s => !(s == ""))).map
      (fun s => String.mk (rstripSlash s.data))))

/-! ## PatternExpander (`fnmatch` shell-glob matching, used by `mdelete`
and `mget` in `s3.py` / `base.py`)

`fnmatch` is a Python standard-library collaborator; it is modelled here
by a direct shell-glob matcher supporting `*`, `?` and `[...]` character
classes (with `!` negation, ranges, a literal `]` first in the class, and
an unterminated `[` taken literally), matching `fnmatch.translate`. -/

/-- Scan for the closing `]` of a character class: the class content and
the remainder of the pattern, or `none` when the class is unterminated. -/
def findClose : List Char → Option (List Char × List Char)
  | [] => none
  | c :: cs =>
    if c = ']' then some ([], cs)
    else
      match findClose cs with
      | none => none
      | some (content, rest) => some (c :: content, rest)

/-- Parse a character class (the characters after `[`): negation flag,
content, rest of the pattern; `none` when unterminated.  A `]` directly
after `[` (or after `[!`) belongs to the content. -/
def parseClass (s : List Char) : Option (Bool × List Char × List Char) :=
  let (neg, s1) :=
    match s with
    | '!' :: t => (true, t)
    | _ => (false, s)
  let (pre, s2) :=
    match s1 with
    | ']' :: t => ([']'], t)
    | _ => ([], s1)
  match findClose s2 with
  | none => none
  | some (content, rest) => some (neg, pre ++ content, rest)

/-- One token of a shell-glob pattern. -/
inductive GlobTok where
  | star : GlobTok
  | anyOne : GlobTok
  | lit : Char → GlobTok
  | cls : Bool → List Char → GlobTok
  deriving DecidableEq

/-- Tokenize a glob pattern; the fuel argument (the pattern length
suffices) keeps the recursion structural. -/
def tokenizeF : Nat → List Char → List GlobTok
  | 0, _ => []
  | _ + 1, [] => []
  | n + 1, '*' :: ps => .star :: tokenizeF n ps
  | n + 1, '?' :: ps => .anyOne :: tokenizeF n ps
  | n + 1, '[' :: ps =>
    match parseClass ps with
    | none => .lit '[' :: tokenizeF n ps
    | some (neg, content, rest) => .cls neg content :: tokenizeF n rest
  | n + 1, c :: ps => .lit c :: tokenizeF n ps

/-- Membership of a character in a class content, resolving `a-b` ranges. -/
def classHas (c : Char) : List Char → Bool
  | [] => false
  | a :: '-' :: b :: rest => (decide (a ≤ c) && decide (c ≤ b)) || classHas c rest
  | a :: rest => (a == c) || classHas c rest

/-- Match a tokenized glob pattern against a character list; `*` tries
every suffix of the remaining input. -/
def matchToks : List GlobTok → List Char → Bool
  | [], s => s.isEmpty
  | .star :: ts, s => s.tails.any (fun t => matchToks ts t)
  | .anyOne :: ts, s =>
    match s with
    | [] => false
    | _ :: ds => matchToks ts ds
  | .lit c :: ts, s =>
    match s with
    | [] => false
    | d :: ds => (c == d) && matchToks ts ds
  | .cls neg content :: ts, s =>
    match s with
    | [] => false
    | d :: ds => (classHas d content != neg) && matchToks ts ds

/-- `fnmatch.fnmatch(name, pat)` (posix: no case folding). -/
def fnmatchB (name pat : String) : Bool :=
  matchToks (tokenizeF pat.data.length pat.data) name.data

/-- `fnmatch.filter(names, pat)`: the entries matching `pat`, in listing
order. -/
def fnmatchFilter (names : List String) (pat : String) : List String :=
  names.filter (fun n => fnmatchB n pat)

/-- The multi-file expansion performed by `mdelete` / `mget`
(`for fpattern in args: for f in fnmatch.filter(remoteFileList, fpattern)`):
for each pattern in argument order, every matching listing entry in
listing order, duplicates across patterns kept. -/
def Expand (patterns listing : List String) : List String :=
  (patterns.map (fun pat => fnmatchFilter listing pat)).flatten

/-! ## Reachable storage states (claim C10)

The mutating operations of the sequencer, from the empty bucket.  The
`put` step stores an arbitrary size at a key that does not end in the
separator — the claim's hypothesis that keys written by `put` come from
`AbsolutePath` and never end in `'/'`. -/

/-- The string ends in the path separator. -/
def endsSep (s : String) : Prop := s.data.getLast? = some '/'

instance (s : String) : Decidable (endsSep s) := by
  unfold endsSep
  infer_instance

/-- Bucket states reachable from the empty bucket by the sequencer's
mutating operations. -/
inductive Reachable : Bucket → Prop where
  | empty : Reachable []
  | mkd (b b' : Bucket) (cwd name : String) :
      Reachable b → mkdir b cwd name = .ok b' → Reachable b'
  | put (b : Bucket) (k : String) (n : Nat) :
      Reachable b → ¬ endsSep k → Reachable (putObj b k n)
  | del (b b' : Bucket) (cwd name : String) :
      Reachable b → delete b cwd name = .ok b' → Reachable b'
  | rm (b b' : Bucket) (cwd name : String) :
      Reachable b → rmdir b cwd name = .ok b' → Reachable b'

/-- Every key ending in the separator has size zero (markers are the only
trailing-separator keys). -/
def KeysOk (b : Bucket) : Prop := ∀ o ∈ b, endsSep o.key → o.size = 0

/-! ## Concrete buckets used by the claims -/

/-- The bucket of claim C1: `a/x.txt`, the marker `a/y/`, and `a/y/z.txt`. -/
def lsBucket : Bucket := [⟨"a/x.txt", 5⟩, ⟨"a/y/", 0⟩, ⟨"a/y/z.txt", 7⟩]

/-- The bucket of claim C2's counterexample: one object whose key merely
extends the queried path. -/
def extBucket : Bucket := [⟨"report2.txt", 5⟩]

/-! ## Order lemmas for the code-point lexicographic comparison -/

theorem lexLe_refl (l : List Char) : lexLe l l = true := by
  induction l with
  | nil => rfl
  | cons a as ih => simp [lexLe, ih]

theorem lexLe_total (a b : List Char) : lexLe a b = true ∨ lexLe b a = true := by
  induction a generalizing b with
  | nil => left; rfl
  | cons x xs ih =>
    cases b with
    | nil => right; rfl
    | cons y ys =>
      by_cases h : x = y
      · subst h
        rcases ih ys with h1 | h1
        · left; simp [lexLe, h1]
        · right; simp [lexLe, h1]
      · rcases lt_or_gt_of_ne h with hlt | hgt
        · left; simp [lexLe, h, hlt]
        · right; simp [lexLe, Ne.symm h, hgt]

theorem lexLe_trans {a b c : List Char} (h1 : lexLe a b = true)
    (h2 : lexLe b c = true) : lexLe a c = true := by
  induction a generalizing b c with
  | nil => rfl
  | cons x xs ih =>
    cases b with
    | nil => simp [lexLe] at h1
    | cons y ys =>
      cases c with
      | nil => simp [lexLe] at h2
      | cons z zs =>
        simp only [lexLe] at h1 h2 ⊢
        by_cases hxy : x = y
        · subst hxy
          by_cases hxz : x = z
          · subst hxz
            simp only [if_pos rfl] at h1 h2 ⊢
            exact ih h1 h2
          · simp only [if_pos rfl] at h1
            simpa [hxz] using h2
        · by_cases hyz : y = z
          · subst hyz
            simpa [hxy] using h1
          · simp only [if_neg hxy] at h1
            simp only [if_neg hyz] at h2
            by_cases hxz : x = z
            · subst hxz
              exact absurd (lt_trans (of_decide_eq_true h1) (of_decide_eq_true h2))
                (lt_irrefl x)
            · simp only [if_neg hxz, decide_eq_true_eq]
              exact lt_trans (of_decide_eq_true h1) (of_decide_eq_true h2)

theorem lexLe_antisymm {a b : List Char} (h1 : lexLe a b = true)
    (h2 : lexLe b a = true) : a = b := by
  induction a generalizing b with
  | nil =>
    cases b with
    | nil => rfl
    | cons y ys => simp [lexLe] at h2
  | cons x xs ih =>
    cases b with
    | nil => simp [lexLe] at h1
    | cons y ys =>
      simp only [lexLe] at h1 h2
      by_cases hxy : x = y
      · subst hxy
        simp only [if_pos rfl] at h1 h2
        rw [ih h1 h2]
      · simp only [if_neg hxy, if_neg (Ne.symm hxy), decide_eq_true_eq] at h1 h2
        exact absurd (lt_trans h1 h2) (lt_irrefl x)

theorem strLe_refl (s : String) : strLe s s = true := lexLe_refl s.data

theorem strLe_total (a b : String) : strLe a b = true ∨ strLe b a = true :=
  lexLe_total a.data b.data

theorem strLe_trans {a b c : String} (h1 : strLe a b = true)
    (h2 : strLe b c = true) : strLe a c = true := lexLe_trans h1 h2

theorem strLe_antisymm {a b : String} (h1 : strLe a b = true)
    (h2 : strLe b a = true) : a = b := by
  cases a with
  | mk da =>
    cases b with
    | mk db => exact congrArg String.mk (lexLe_antisymm h1 h2)

/-! ## Sorting lemmas (`sortKeys` models Python `list.sort` on strings) -/

theorem mem_insertKey {a s : String} {l : List String} :
    a ∈ insertKey s l ↔ a = s ∨ a ∈ l := by
  induction l with
  | nil => simp [insertKey]
  | cons t ts ih =>
    simp only [insertKey]
    split
    · simp
    · simp only [List.mem_cons, ih]
      tauto

theorem mem_sortKeys {a : String} {l : List String} :
    a ∈ sortKeys l ↔ a ∈ l := by
  induction l with
  | nil => simp [sortKeys]
  | cons s ss ih => simp [sortKeys, mem_insertKey, ih]

theorem sortKeys_head_least {l t : List String} {k : String}
    (h : sortKeys l = k :: t) : k ∈ l ∧ ∀ x ∈ l, strLe k x = true := by
  induction l generalizing k t with
  | nil => simp [sortKeys] at h
  | cons s ss ih =>
    simp only [sortKeys] at h
    cases hss : sortKeys ss with
    | nil =>
      rw [hss] at h
      simp only [insertKey] at h
      injection h with h1 h2
      subst h1
      refine ⟨List.mem_cons_self _ _, ?_⟩
      intro x hx
      rcases List.mem_cons.mp hx with rfl | hx
      · exact strLe_refl x
      · exact absurd (mem_sortKeys.mpr hx) (by simp [hss])
    | cons u us =>
      obtain ⟨humem, hulb⟩ := ih hss
      rw [hss] at h
      simp only [insertKey] at h
      split at h
      · rename_i hsu
        injection h with h1 h2
        subst h1
        refine ⟨List.mem_cons_self _ _, ?_⟩
        intro x hx
        rcases List.mem_cons.mp hx with rfl | hx
        · exact strLe_refl x
        · exact strLe_trans hsu (hulb x hx)
      · rename_i hsu
        injection h with h1 h2
        subst h1
        have hus : strLe u s = true := by
          rcases strLe_total s u with h1 | h1
          · exact absurd h1 hsu
          · exact h1
        refine ⟨List.mem_cons_of_mem _ humem, ?_⟩
        intro x hx
        rcases List.mem_cons.mp hx with rfl | hx
        · exact hus
        · exact hulb x hx

/-! ## Classifier characterizations -/

/-- `IsFile` holds exactly when the prefix listing is a single object of
nonzero size. -/
theorem IsFile_iff {b : Bucket} {p : String} :
    IsFile b p = true ↔ ∃ o, s3All b p = [o] ∧ 0 < o.size := by
  unfold IsFile
  cases h : s3All b p with
  | nil => simp [h]
  | cons o os =>
    cases os with
    | nil => simp [h]
    | cons o2 os2 => simp [h]

/-! ## Splitting and joining on the separator -/

theorem mem_of_getLast?_eq {α : Type} {l : List α} {a : α}
    (h : l.getLast? = some a) : a ∈ l := by
  obtain ⟨hne, rfl⟩ := List.mem_getLast?_eq_getLast h
  exact List.getLast_mem hne

theorem splitSep_ne_nil (l : List Char) : splitSep l ≠ [] := by
  cases l with
  | nil => simp [splitSep]
  | cons c rest =>
    simp only [splitSep]
    split
    · simp
    · split <;> simp

theorem sep_not_mem_splitSep {l c : List Char} (h : c ∈ splitSep l) : '/' ∉ c := by
  induction l generalizing c with
  | nil =>
    simp [splitSep] at h
    subst h
    simp
  | cons a rest ih =>
    simp only [splitSep] at h
    by_cases ha : a = '/'
    · rw [if_pos ha] at h
      rcases List.mem_cons.mp h with rfl | h
      · simp
      · exact ih h
    · rw [if_neg ha] at h
      cases hsp : splitSep rest with
      | nil => exact absurd hsp (splitSep_ne_nil rest)
      | cons hh tt =>
        rw [hsp] at h
        rcases List.mem_cons.mp h with rfl | h
        · intro hc
          rcases List.mem_cons.mp hc with h1 | h1
          · exact ha h1.symm
          · exact ih (hsp ▸ List.mem_cons_self hh tt) h1
        · exact ih (hsp ▸ List.mem_cons_of_mem hh h)

theorem mem_of_mem_splitSep {l c : List Char} {a : Char} (hc : c ∈ splitSep l)
    (ha : a ∈ c) : a ∈ l := by
  induction l generalizing c with
  | nil =>
    simp [splitSep] at hc
    subst hc
    simp at ha
  | cons x rest ih =>
    simp only [splitSep] at hc
    by_cases hx : x = '/'
    · rw [if_pos hx] at hc
      rcases List.mem_cons.mp hc with rfl | hc
      · simp at ha
      · exact List.mem_cons_of_mem _ (ih hc ha)
    · rw [if_neg hx] at hc
      cases hsp : splitSep rest with
      | nil => exact absurd hsp (splitSep_ne_nil rest)
      | cons hh tt =>
        rw [hsp] at hc
        rcases List.mem_cons.mp hc with rfl | hc
        · rcases List.mem_cons.mp ha with rfl | ha
          · exact List.mem_cons_self _ _
          · exact List.mem_cons_of_mem _ (ih (hsp ▸ List.mem_cons_self hh tt) ha)
        · exact List.mem_cons_of_mem _ (ih (hsp ▸ List.mem_cons_of_mem hh hc) ha)

theorem splitSep_no_sep {c : List Char} (h : '/' ∉ c) : splitSep c = [c] := by
  induction c with
  | nil => rfl
  | cons a as ih =>
    have ha : ¬ a = '/' := fun hh => h (by simp [hh])
    have has : '/' ∉ as := fun hh => h (List.mem_cons_of_mem _ hh)
    simp [splitSep, ha, ih has]

theorem splitSep_append_sep {c rest : List Char} (h : '/' ∉ c) :
    splitSep (c ++ '/' :: rest) = c :: splitSep rest := by
  induction c with
  | nil => simp [splitSep]
  | cons a as ih =>
    have ha : ¬ a = '/' := fun hh => h (by simp [hh])
    have has : '/' ∉ as := fun hh => h (List.mem_cons_of_mem _ hh)
    simp [splitSep, ha, ih has]

theorem joinSep_cons_cons (c c2 : List Char) (cs : List (List Char)) :
    joinSep (c :: c2 :: cs) = c ++ '/' :: joinSep (c2 :: cs) := rfl

theorem splitSep_joinSep {comps : List (List Char)} (hne : comps ≠ [])
    (hsep : ∀ c ∈ comps, '/' ∉ c) : splitSep (joinSep comps) = comps := by
  induction comps with
  | nil => exact absurd rfl hne
  | cons c cs ih =>
    cases cs with
    | nil => simpa [joinSep] using splitSep_no_sep (hsep c (List.mem_cons_self _ _))
    | cons c2 cs2 =>
      rw [joinSep_cons_cons, splitSep_append_sep (hsep c (List.mem_cons_self _ _)),
        ih (by simp) (fun x hx => hsep x (List.mem_cons_of_mem _ hx))]

theorem joinSep_head {c : List Char} {cs : List (List Char)} (h : c ≠ []) :
    (joinSep (c :: cs)).head? = c.head? := by
  cases cs with
  | nil => rfl
  | cons c2 cs2 =>
    rw [joinSep_cons_cons, List.head?_append]
    cases c with
    | nil => exact absurd rfl h
    | cons a as => rfl

theorem joinSep_getLast {comps : List (List Char)} (hne : comps ≠ [])
    (h0 : ∀ c ∈ comps, c ≠ []) :
    ∃ cl ∈ comps, (joinSep comps).getLast? = cl.getLast? := by
  induction comps with
  | nil => exact absurd rfl hne
  | cons c cs ih =>
    cases cs with
    | nil => exact ⟨c, List.mem_cons_self _ _, rfl⟩
    | cons c2 cs2 =>
      obtain ⟨cl, hcl, heq⟩ := ih (by simp) (fun x hx => h0 x (List.mem_cons_of_mem _ hx))
      refine ⟨cl, List.mem_cons_of_mem _ hcl, ?_⟩
      have hcl0 : cl ≠ [] := h0 cl (List.mem_cons_of_mem _ hcl)
      obtain ⟨y, hy⟩ := Option.isSome_iff_exists.mp (List.getLast?_isSome.mpr hcl0)
      rw [joinSep_cons_cons, List.getLast?_append,
        show ('/' :: joinSep (c2 :: cs2)) = ['/'] ++ joinSep (c2 :: cs2) from rfl,
        List.getLast?_append, heq, hy]
      rfl

theorem mem_joinSep {comps : List (List Char)} {a : Char} (h : a ∈ joinSep comps) :
    a = '/' ∨ ∃ c ∈ comps, a ∈ c := by
  induction comps with
  | nil => simp [joinSep] at h
  | cons c cs ih =>
    cases cs with
    | nil => exact Or.inr ⟨c, List.mem_cons_self _ _, h⟩
    | cons c2 cs2 =>
      rw [joinSep_cons_cons] at h
      rcases List.mem_append.mp h with h1 | h1
      · exact Or.inr ⟨c, List.mem_cons_self _ _, h1⟩
      · rcases List.mem_cons.mp h1 with rfl | h1
        · exact Or.inl rfl
        · rcases ih h1 with h2 | ⟨cc, hcc, hacc⟩
          · exact Or.inl h2
          · exact Or.inr ⟨cc, List.mem_cons_of_mem _ hcc, hacc⟩

/-! ## The `normpath` component loop: invariants and fixed point -/

theorem dotsLead_of_all_ddot {l : List (List Char)} (h : ∀ x ∈ l, x = ddot) :
    dotsLead l = true := by
  induction l with
  | nil => rfl
  | cons a as ih =>
    simp only [dotsLead]
    rw [if_pos (h a (List.mem_cons_self _ _))]
    exact ih (fun x hx => h x (List.mem_cons_of_mem _ hx))

theorem dotsLead_append_ne {l : List (List Char)} {c : List Char}
    (h : dotsLead l = true) (hc : c ≠ ddot) : dotsLead (l ++ [c]) = true := by
  induction l with
  | nil => simp [dotsLead, hc]
  | cons a as ih =>
    rw [List.cons_append]
    simp only [dotsLead] at h ⊢
    by_cases ha : a = ddot
    · rw [if_pos ha] at h ⊢
      exact ih h
    · rw [if_neg ha] at h ⊢
      rw [List.all_append, h]
      simp [hc]

theorem dotsLead_dropLast {l : List (List Char)} (h : dotsLead l = true) :
    dotsLead l.dropLast = true := by
  induction l with
  | nil => rfl
  | cons a as ih =>
    cases as with
    | nil => rfl
    | cons b bs =>
      rw [List.dropLast_cons₂]
      simp only [dotsLead] at h ⊢
      by_cases ha : a = ddot
      · rw [if_pos ha] at h ⊢
        exact ih h
      · rw [if_neg ha] at h ⊢
        rw [List.all_eq_true] at h ⊢
        intro x hx
        exact h x (List.Sublist.mem hx (List.dropLast_sublist _))

theorem dotsLead_before_ddot {xs ys : List (List Char)}
    (h : dotsLead (xs ++ ddot :: ys) = true) : ∀ x ∈ xs, x = ddot := by
  induction xs with
  | nil => intro x hx; simp at hx
  | cons a as ih =>
    rw [List.cons_append] at h
    simp only [dotsLead] at h
    by_cases ha : a = ddot
    · rw [if_pos ha] at h
      intro x hx
      rcases List.mem_cons.mp hx with rfl | hx
      · exact ha
      · exact ih h x hx
    · rw [if_neg ha, List.all_eq_true] at h
      have := h ddot (by simp)
      simp at this

theorem dotsLead_all_of_getLast {l : List (List Char)} (h : dotsLead l = true)
    (hl : l.getLast? = some ddot) : ∀ x ∈ l, x = ddot := by
  induction l with
  | nil => simp
  | cons a as ih =>
    intro x hx
    cases as with
    | nil =>
      simp only [List.getLast?_singleton, Option.some.injEq] at hl
      rcases List.mem_cons.mp hx with rfl | hx
      · exact hl
      · simp at hx
    | cons b bs =>
      rw [List.getLast?_cons_cons] at hl
      simp only [dotsLead] at h
      by_cases ha : a = ddot
      · rw [if_pos ha] at h
        rcases List.mem_cons.mp hx with rfl | hx
        · exact ha
        · exact ih h hl x hx
      · rw [if_neg ha, List.all_eq_true] at h
        have hmem : ddot ∈ b :: bs := mem_of_getLast?_eq hl
        have := h ddot hmem
        simp at this

theorem getLast?_all_ddot {l : List (List Char)} (hne : l ≠ [])
    (h : ∀ x ∈ l, x = ddot) : l.getLast? = some ddot := by
  obtain ⟨y, hy⟩ := Option.isSome_iff_exists.mp (List.getLast?_isSome.mpr hne)
  rw [hy, h y (mem_of_getLast?_eq hy)]

theorem normComps_mem {isl : Nat} {x : List Char} {l acc : List (List Char)}
    (h : x ∈ normComps isl acc l) : x ∈ acc ∨ x ∈ l := by
  induction l generalizing acc with
  | nil => exact Or.inl h
  | cons c cs ih =>
    simp only [normComps] at h
    split at h
    · rcases ih h with h1 | h1
      · exact Or.inl h1
      · exact Or.inr (List.mem_cons_of_mem _ h1)
    · split at h
      · rcases ih h with h1 | h1
        · rcases List.mem_append.mp h1 with h2 | h2
          · exact Or.inl h2
          · simp only [List.mem_singleton] at h2
            subst h2
            exact Or.inr (List.mem_cons_self _ _)
        · exact Or.inr (List.mem_cons_of_mem _ h1)
      · split at h
        · rcases ih h with h1 | h1
          · exact Or.inl (List.Sublist.mem h1 (List.dropLast_sublist acc))
          · exact Or.inr (List.mem_cons_of_mem _ h1)
        · rcases ih h with h1 | h1
          · exact Or.inl h1
          · exact Or.inr (List.mem_cons_of_mem _ h1)

theorem normComps_good {isl : Nat} {l acc : List (List Char)}
    (hacc : ∀ x ∈ acc, ¬(x = [] ∨ x = ['.'])) :
    ∀ x ∈ normComps isl acc l, ¬(x = [] ∨ x = ['.']) := by
  induction l generalizing acc with
  | nil => exact hacc
  | cons c cs ih =>
    intro x hx
    simp only [normComps] at hx
    split at hx
    · exact ih hacc x hx
    · rename_i hcond1
      split at hx
      · refine ih ?_ x hx
        intro y hy
        rcases List.mem_append.mp hy with h2 | h2
        · exact hacc y h2
        · simp only [List.mem_singleton] at h2
          subst h2
          exact hcond1
      · split at hx
        · refine ih ?_ x hx
          intro y hy
          exact hacc y (List.Sublist.mem hy (List.dropLast_sublist acc))
        · exact ih hacc x hx

theorem normComps_dotsLead {isl : Nat} {l acc : List (List Char)}
    (hacc : dotsLead acc = true) : dotsLead (normComps isl acc l) = true := by
  induction l generalizing acc with
  | nil => exact hacc
  | cons c cs ih =>
    simp only [normComps]
    split
    · exact ih hacc
    · split
      · rename_i hcond2
        by_cases hc : c = ddot
        · rcases hcond2 with h2 | ⟨-, h2⟩ | h2
          · exact absurd hc h2
          · subst h2
            exact ih (by simp [dotsLead, hc])
          · have hall := dotsLead_all_of_getLast hacc h2
            refine ih (dotsLead_of_all_ddot ?_)
            intro x hx
            rcases List.mem_append.mp hx with h3 | h3
            · exact hall x h3
            · simp only [List.mem_singleton] at h3
              subst h3
              exact hc
        · exact ih (dotsLead_append_ne hacc hc)
      · split
        · exact ih (dotsLead_dropLast hacc)
        · exact ih hacc

theorem normComps_fix {l acc : List (List Char)}
    (hd : dotsLead (acc ++ l) = true)
    (hgood : ∀ x ∈ l, ¬(x = [] ∨ x = ['.'])) :
    normComps 0 acc l = acc ++ l := by
  induction l generalizing acc with
  | nil => simp [normComps]
  | cons c cs ih =>
    have hc := hgood c (List.mem_cons_self _ _)
    simp only [normComps]
    rw [if_neg hc]
    have hcond : c ≠ ddot ∨ (True ∧ acc = []) ∨ acc.getLast? = some ddot := by
      by_cases hcd : c = ddot
      · right
        cases hacc : acc with
        | nil => exact Or.inl ⟨trivial, rfl⟩
        | cons a as =>
          right
          rw [← hacc]
          refine getLast?_all_ddot (by simp [hacc]) ?_
          subst hcd
          exact dotsLead_before_ddot hd
      · exact Or.inl hcd
    rw [if_pos hcond]
    rw [ih (by rwa [List.append_assoc, List.singleton_append])
      (fun x hx => hgood x (List.mem_cons_of_mem _ hx))]
    rw [List.append_assoc, List.singleton_append]

/-! ## Stripping and backslash replacement -/

theorem rstripSlash_nil : rstripSlash [] = [] := rfl

theorem rstripSlash_cons (c : Char) (cs : List Char) :
    rstripSlash (c :: cs) =
      match rstripSlash cs with
      | [] => if c = '/' then [] else [c]
      | r => c :: r := rfl

theorem rstripSlash_head {l : List Char} {a : Char}
    (h : (rstripSlash l).head? = some a) : l.head? = some a := by
  cases l with
  | nil => rw [rstripSlash_nil] at h; simp at h
  | cons c cs =>
    rw [rstripSlash_cons] at h
    cases hr : rstripSlash cs with
    | nil =>
      rw [hr] at h
      have h2 : (if c = '/' then ([] : List Char) else [c]).head? = some a := h
      by_cases hc : c = '/'
      · rw [if_pos hc] at h2; simp at h2
      · rw [if_neg hc] at h2
        simp only [List.head?_cons, Option.some.injEq] at h2 ⊢
        exact h2
    | cons r rs =>
      rw [hr] at h
      have h2 : (c :: r :: rs).head? = some a := h
      simp only [List.head?_cons, Option.some.injEq] at h2 ⊢
      exact h2

theorem rstripSlash_mem {l : List Char} {a : Char} (h : a ∈ rstripSlash l) :
    a ∈ l := by
  induction l with
  | nil => rw [rstripSlash_nil] at h; simp at h
  | cons c cs ih =>
    rw [rstripSlash_cons] at h
    cases hr : rstripSlash cs with
    | nil =>
      rw [hr] at h
      have h2 : a ∈ (if c = '/' then ([] : List Char) else [c]) := h
      by_cases hc : c = '/'
      · rw [if_pos hc] at h2; simp at h2
      · rw [if_neg hc] at h2
        simp only [List.mem_singleton] at h2
        simp [h2]
    | cons r rs =>
      rw [hr] at h
      have h2 : a ∈ c :: r :: rs := h
      rcases List.mem_cons.mp h2 with rfl | h3
      · exact List.mem_cons_self _ _
      · exact List.mem_cons_of_mem _ (ih (hr ▸ h3))

theorem rstripSlash_no_op {l : List Char} (h : l.getLast? ≠ some '/') :
    rstripSlash l = l := by
  induction l with
  | nil => rfl
  | cons c cs ih =>
    cases cs with
    | nil =>
      have hc : ¬ c = '/' := by simpa using h
      simp [rstripSlash_cons, rstripSlash_nil, hc]
    | cons d ds =>
      have h2 : (d :: ds).getLast? ≠ some '/' := by
        rwa [List.getLast?_cons_cons] at h
      rw [rstripSlash_cons, ih h2]

theorem lstripSlash_head {l : List Char} {a : Char}
    (h : (lstripSlash l).head? = some a) : ¬ a = '/' := by
  induction l with
  | nil => simp [lstripSlash] at h
  | cons c cs ih =>
    simp only [lstripSlash, List.dropWhile_cons] at h
    split at h
    · exact ih h
    · rename_i hc
      simp only [List.head?_cons, Option.some.injEq] at h
      subst h
      simpa using hc

theorem lstripSlash_mem {l : List Char} {a : Char} (h : a ∈ lstripSlash l) :
    a ∈ l := List.Sublist.mem h (List.dropWhile_sublist _)

theorem lstripSlash_no_op {l : List Char} {a : Char} (hhd : l.head? = some a)
    (ha : ¬ a = '/') : lstripSlash l = l := by
  cases l with
  | nil => rfl
  | cons c cs =>
    simp only [List.head?_cons, Option.some.injEq] at hhd
    subst hhd
    simp [lstripSlash, List.dropWhile_cons, ha]

theorem initSlashes_eq_zero {l : List Char} {a : Char} (hhd : l.head? = some a)
    (ha : ¬ a = '/') : initSlashes l = 0 := by
  cases l with
  | nil => simp at hhd
  | cons c cs =>
    simp only [List.head?_cons, Option.some.injEq] at hhd
    subst hhd
    have hca : (('/' : Char) == c) = false := by
      simp only [beq_eq_false_iff_ne, ne_eq]
      exact fun hh => ha hh.symm
    simp [initSlashes, leadsIn, hca]

theorem replaceBack_no_op {l : List Char} (h : ∀ a ∈ l, a ≠ '\\') :
    replaceBack l = l := by
  induction l with
  | nil => rfl
  | cons c cs ih =>
    have hc : ¬ c = '\\' := h c (List.mem_cons_self _ _)
    have ihr : replaceBack cs = cs := ih (fun a ha => h a (List.mem_cons_of_mem _ ha))
    simp only [replaceBack, List.map_cons, if_neg hc]
    simp only [replaceBack] at ihr
    rw [ihr]

/-! ## Idempotence of `AbsolutePath` at the root working directory -/

theorem absPath_root_idem {x r : String}
    (h : AbsolutePath "" x = some r) (hr : r ≠ "")
    (hb : ∀ a ∈ x.data, a ≠ '\\') :
    AbsolutePath "" r = some r := by
  cases hx : x.data with
  | nil => rw [AbsolutePath, hx] at h; exact absurd h (by simp)
  | cons c t =>
    rw [AbsolutePath, hx] at h
    simp only [show ("" : String).data = [] from rfl, ne_eq, not_true_eq_false,
      and_false, if_false, Option.some.injEq] at h
    -- h : ⟨if rb = ['.'] then [] else rb⟩ = r   where
    --   rb = replaceBack (normpath s),  s = rstripSlash (lstripSlash (c :: t))
    set s := rstripSlash (lstripSlash (c :: t)) with hs
    have hnb_s : ∀ a ∈ s, a ≠ '\\' := by
      intro a ha
      exact hb a (hx ▸ lstripSlash_mem (rstripSlash_mem ha))
    have hhead_s : ∀ a, s.head? = some a → ¬ a = '/' := by
      intro a ha
      exact lstripSlash_head (rstripSlash_head ha)
    by_cases hse : s = []
    · rw [hse] at h
      rw [show normpath [] = ['.'] from rfl] at h
      rw [show replaceBack ['.'] = ['.'] from rfl] at h
      simp only [if_pos rfl] at h
      exact absurd h.symm (by simpa using hr)
    · -- s is nonempty and starts with a non-slash character
      obtain ⟨a0, t0, hs_cons⟩ := List.exists_cons_of_ne_nil hse
      have ha0 : ¬ a0 = '/' := hhead_s a0 (by rw [hs_cons]; rfl)
      have hisl : initSlashes s = 0 :=
        initSlashes_eq_zero (l := s) (by rw [hs_cons]; rfl) ha0
      have hnorm : normpath s =
          (if joinSep (normComps 0 [] (splitSep s)) = [] then ['.']
           else joinSep (normComps 0 [] (splitSep s))) := by
        rw [normpath, if_neg hse, hisl]
        simp
      set comps := normComps 0 [] (splitSep s) with hcomps
      have hgoodc : ∀ y ∈ comps, ¬(y = [] ∨ y = ['.']) :=
        normComps_good (by simp)
      have hdots : dotsLead comps = true := normComps_dotsLead rfl
      have hsepfree : ∀ y ∈ comps, '/' ∉ y := by
        intro y hy
        rcases normComps_mem hy with h1 | h1
        · simp at h1
        · exact sep_not_mem_splitSep h1
      have hchars : ∀ y ∈ comps, ∀ a ∈ y, a ∈ s := by
        intro y hy a ha
        rcases normComps_mem hy with h1 | h1
        · simp at h1
        · exact mem_of_mem_splitSep h1 ha
      by_cases hjoin : joinSep comps = []
      · rw [hnorm, if_pos hjoin] at h
        rw [show replaceBack ['.'] = ['.'] from rfl] at h
        simp only [if_pos rfl] at h
        exact absurd h.symm (by simpa using hr)
      · rw [hnorm, if_neg hjoin] at h
        have hnb_jn : ∀ a ∈ joinSep comps, a ≠ '\\' := by
          intro a ha
          rcases mem_joinSep ha with rfl | ⟨y, hy, hay⟩
          · simp
          · exact hnb_s a (hchars y hy a hay)
        rw [replaceBack_no_op hnb_jn] at h
        have hcompsne : comps ≠ [] := by
          intro hcn
          exact hjoin (by rw [hcn]; rfl)
        have hjndot : joinSep comps ≠ ['.'] := by
          intro hjd
          cases hcc : comps with
          | nil => exact hcompsne hcc
          | cons c0 cs0 =>
            cases cs0 with
            | nil =>
              rw [hcc] at hjd
              exact hgoodc c0 (hcc ▸ List.mem_cons_self _ _) (Or.inr hjd)
            | cons c1 cs1 =>
              rw [hcc, joinSep_cons_cons] at hjd
              have hc0ne : c0 ≠ [] := fun hn =>
                hgoodc c0 (hcc ▸ List.mem_cons_self _ _) (Or.inl hn)
              have h1 : c0.length + ((joinSep (c1 :: cs1)).length + 1) = 1 := by
                simpa using congrArg List.length hjd
              have h2 : c0.length = 0 := by omega
              exact hc0ne (List.length_eq_zero.mp h2)
        rw [if_neg hjndot] at h
        have hrdata : r.data = joinSep comps := by rw [← h]
        have hrdne : r.data ≠ [] := by rw [hrdata]; exact hjoin
        -- the first component of the join: nonempty, slash-free
        obtain ⟨c0, crest, hcc⟩ := List.exists_cons_of_ne_nil hcompsne
        have hc0ne : c0 ≠ [] := fun hn =>
          hgoodc c0 (hcc ▸ List.mem_cons_self _ _) (Or.inl hn)
        obtain ⟨a1, c0t, hc0eq⟩ := List.exists_cons_of_ne_nil hc0ne
        have ha1 : ¬ a1 = '/' := by
          intro hh
          exact hsepfree c0 (hcc ▸ List.mem_cons_self _ _)
            (hc0eq ▸ hh ▸ List.mem_cons_self _ _)
        have hh1 : r.data.head? = some a1 := by
          rw [hrdata, hcc, joinSep_head hc0ne, hc0eq]
          rfl
        have hlast : r.data.getLast? ≠ some '/' := by
          obtain ⟨cl, hclmem, hcleq⟩ :=
            joinSep_getLast hcompsne (fun y hy hn => hgoodc y hy (Or.inl hn))
          rw [hrdata, hcleq]
          intro heq
          exact sep_not_mem_splitSep
            (by rcases normComps_mem hclmem with h1 | h1
                · simp at h1
                · exact h1)
            (mem_of_getLast?_eq heq)
        -- now evaluate the second call
        obtain ⟨z, zs, hrd⟩ := List.exists_cons_of_ne_nil hrdne
        have hz : z = a1 := by
          rw [hrd] at hh1
          simpa using hh1
        have hrt : r.data = a1 :: zs := by rw [hrd, hz]
        have hlst : lstripSlash r.data = r.data := lstripSlash_no_op hh1 ha1
        have hrst : rstripSlash r.data = r.data := rstripSlash_no_op hlast
        have hisl2 : initSlashes r.data = 0 := initSlashes_eq_zero hh1 ha1
        have hsplit : splitSep r.data = comps := by
          rw [hrdata]
          exact splitSep_joinSep hcompsne hsepfree
        have hfix : normComps 0 [] comps = comps :=
          normComps_fix (by simpa using hdots) hgoodc
        have hnorm2 : normpath r.data = r.data := by
          rw [normpath, if_neg hrdne]
          simp only [hisl2, hsplit, hfix, List.replicate, List.nil_append]
          rw [← hrdata, if_neg hrdne]
        rw [AbsolutePath, hrt]

        simp only [show ("" : String).data = [] from rfl, ne_eq, not_true_eq_false,
          and_false, if_false, Option.some.injEq]
        rw [← hrt, hlst, hrst, hnorm2]
        have hrdot : r.data ≠ ['.'] := by rw [hrdata]; exact hjndot
        rw [replaceBack_no_op (by rw [hrdata]; exact hnb_jn), if_neg hrdot]

/-! ## The mutating operations and the marker-key invariant (claim C10) -/

theorem mkdir_ok {b b' : Bucket} {cwd name : String}
    (h : mkdir b cwd name = .ok b') :
    ∃ rp, AbsolutePath cwd name = some rp ∧ b' = putObj b (rp ++ "/") 0 := by
  unfold mkdir at h
  split at h
  · exact absurd h (by simp)
  · rename_i rp hap
    split at h
    · injection h with h1
      exact ⟨rp, hap, h1.symm⟩
    · exact absurd h (by simp)

theorem delete_ok {b b' : Bucket} {cwd name : String}
    (h : delete b cwd name = .ok b') :
    ∃ k, b' = b.filter (fun x => !(x.key == k)) := by
  unfold delete at h
  split at h
  · exact absurd h (by simp)
  · rename_i rp hap
    split at h
    · split at h
      · exact absurd h (by simp)
      · rename_i o os hm
        injection h with h1
        exact ⟨o.key, h1.symm⟩
    · split at h
      · exact absurd h (by simp)
      · exact absurd h (by simp)

theorem rmdir_ok {b b' : Bucket} {cwd name : String}
    (h : rmdir b cwd name = .ok b') :
    ∃ k, b' = b.filter (fun x => !(x.key == k)) := by
  unfold rmdir at h
  split at h
  · exact absurd h (by simp)
  · rename_i rp hap
    split at h
    · split at h
      · exact absurd h (by simp)
      · split at h
        · exact absurd h (by simp)
        · rename_i o os hm
          injection h with h1
          exact ⟨o.key, h1.symm⟩
      · exact absurd h (by simp)
    · exact absurd h (by simp)

theorem KeysOk_filter {b : Bucket} (h : KeysOk b) (p : S3Object → Bool) :
    KeysOk (b.filter p) := fun o ho he => h o (List.mem_of_mem_filter ho) he

theorem KeysOk_putObj {b : Bucket} {k : String} {n : Nat} (h : KeysOk b)
    (hk : ¬ endsSep k ∨ n = 0) : KeysOk (putObj b k n) := by
  intro o ho he
  rcases List.mem_append.mp ho with h1 | h1
  · exact KeysOk_filter h _ o h1 he
  · simp only [List.mem_singleton] at h1
    subst h1
    rcases hk with hk | hk
    · exact absurd he hk
    · exact hk

/-- Every reachable bucket satisfies the marker-key invariant. -/
theorem reach_keysOk {b : Bucket} (h : Reachable b) : KeysOk b := by
  induction h with
  | empty => intro o ho he; simp at ho
  | mkd b0 b1 cwd name hr hok ih =>
    obtain ⟨rp, -, rfl⟩ := mkdir_ok hok
    exact KeysOk_putObj ih (Or.inr rfl)
  | put b0 k n hr hk ih => exact KeysOk_putObj ih (Or.inl hk)
  | del b0 b1 cwd name hr hok ih =>
    obtain ⟨k, rfl⟩ := delete_ok hok
    exact KeysOk_filter ih _
  | rm b0 b1 cwd name hr hok ih =>
    obtain ⟨k, rfl⟩ := rmdir_ok hok
    exact KeysOk_filter ih _

/-- When the prefix listing of a nonempty path is a single object and
`IsDir` holds, that object's key is the marker pattern. -/
theorem IsDir_single {b : Bucket} {p : String} {o : S3Object}
    (hs : s3All b p = [o]) (hp : p ≠ "") (hd : IsDir b p = true) :
    (p = o.key ∧ o.key.data.getLast? = some '/') ∨ p ++ "/" = o.key := by
  unfold IsDir at hd
  rw [hs] at hd
  have hsk : sortKeys (([o] : Bucket).map S3Object.key) = [o.key] := rfl
  rw [hsk] at hd
  rw [if_neg (by simp [hp])] at hd
  have hd2 : decide ((p = o.key ∧ o.key.data.getLast? = some '/') ∨ p ++ "/" = o.key)
      = true := hd
  exact of_decide_eq_true hd2

/-- Under the marker-key invariant, no nonempty path is both a file and
a directory. -/
theorem keysOk_not_file_and_dir {b : Bucket} (hk : KeysOk b) {p : String}
    (hp : p ≠ "") : ¬(IsFile b p = true ∧ IsDir b p = true) := by
  rintro ⟨hf, hd⟩
  obtain ⟨o, hs, hsize⟩ := IsFile_iff.mp hf
  have hob : o ∈ b :=
    List.mem_of_mem_filter (show o ∈ List.filter _ b from hs ▸ List.mem_cons_self o [])
  rcases IsDir_single hs hp hd with ⟨-, hsl⟩ | hpk
  · have h0 := hk o hob hsl
    omega
  · have hes : endsSep o.key := by
      rw [endsSep, ← hpk, String.data_append,
        show ("/" : String).data = ['/'] from rfl]
      exact List.getLast?_concat _
    have h0 := hk o hob hes
    omega

/-! ## The claims -/

/-- C1, counterexample: with objects `a/x.txt`, `a/y/` (marker) and
`a/y/z.txt` and working directory `a`, `ls` does not return
`["x.txt", "y"]` — the non-root branch of `ls` only removes the matched
`"a/"` and never truncates a nested key to its first component. -/
theorem claim_C1_cex : ls lsBucket "a" ≠ Except.ok ["x.txt", "y"] := by decide

/-- C1 (amended): with objects `a/x.txt`, `a/y/` (marker) and `a/y/z.txt`
and working directory `a`, `ls` returns exactly
`["x.txt", "y", "y/z.txt"]` sorted lexicographically: the matched prefix
`"a/"` is removed and trailing separators are stripped, but a key nested
below a subdirectory contributes its whole remaining path (deduplication
happens before the separator-stripping, so the marker's `"y"` and the
nested `"y/z.txt"` stay distinct entries). -/
theorem claim_C1 :
    ls lsBucket "a" = Except.ok ["x.txt", "y", "y/z.txt"] := by decide

/-- C2, counterexample: when the bucket holds the single object
`report2.txt` of size 5, `IsFile "report"` is true although no object's
key equals `report` exactly — the listing is a prefix query, not an
exact-key query. -/
theorem claim_C2_cex :
    IsFile extBucket "report" = true ∧ ∀ o ∈ extBucket, o.key ≠ "report" := by
  decide

/-- C2 (amended): `IsFile p` is true iff exactly one object exists whose
key has `p` as a prefix, and that object's size is greater than zero (so
a sole object whose key merely extends `p` does make `IsFile p` true). -/
theorem claim_C2 (b : Bucket) (p : String) :
    IsFile b p = true ↔ (s3All b p).length = 1 ∧ ∀ o ∈ s3All b p, 0 < o.size := by
  rw [IsFile_iff]
  constructor
  · rintro ⟨o, hs, hsize⟩
    rw [hs]
    refine ⟨rfl, ?_⟩
    intro o2 ho2
    rcases List.mem_singleton.mp ho2 with rfl
    exact hsize
  · rintro ⟨hlen, hall⟩
    obtain ⟨o, hs⟩ := List.length_eq_one.mp hlen
    exact ⟨o, hs, hall o (hs ▸ List.mem_cons_self o [])⟩

/-- C3 (confirmed): for a canonical path `p` (in particular `p ≠ "/"`,
since a canonical path carries no separators at its ends), `IsDir` is
true at the root; otherwise it is false when no key has `p` as a prefix,
and when matches exist it is true exactly when the `strLe`-least matching
key either equals `p` and ends in the separator, or equals `p ++ "/"`. -/
theorem claim_C3 (b : Bucket) (p : String) (hp2 : p ≠ "/") :
    (p = "" → IsDir b p = true) ∧
    (p ≠ "" →
      (s3All b p = [] → IsDir b p = false) ∧
      (∀ m, m ∈ (s3All b p).map S3Object.key →
        (∀ k ∈ (s3All b p).map S3Object.key, strLe m k = true) →
        (IsDir b p = true ↔ (m = p ∧ m.data.getLast? = some '/') ∨ m = p ++ "/"))) := by
  refine ⟨?_, ?_⟩
  · intro hp0
    subst hp0
    unfold IsDir
    simp
  · intro hp1
    refine ⟨?_, ?_⟩
    · intro hnil
      unfold IsDir
      rw [hnil]
      simp [hp1, hp2, sortKeys]
    · intro m hm hlb
      cases hsort : sortKeys ((s3All b p).map S3Object.key) with
      | nil =>
        have hx := mem_sortKeys.mpr hm
        rw [hsort] at hx
        simp at hx
      | cons k t =>
        obtain ⟨hkmem, hklb⟩ := sortKeys_head_least hsort
        have hmk : m = k := strLe_antisymm (hlb k hkmem) (hklb m hm)
        subst hmk
        unfold IsDir
        rw [hsort, if_neg (by simp [hp1, hp2])]
        have hshow : (match m :: t with
            | [] => false
            | k :: _ => decide ((p = k ∧ k.data.getLast? = some '/') ∨ p ++ "/" = k)) =
            decide ((p = m ∧ m.data.getLast? = some '/') ∨ p ++ "/" = m) := rfl
        rw [hshow, decide_eq_true_eq]
        constructor
        · rintro (⟨h1, h2⟩ | h1)
          · exact Or.inl ⟨h1.symm, h2⟩
          · exact Or.inr h1.symm
        · rintro (⟨h1, h2⟩ | h1)
          · exact Or.inl ⟨h1.symm, h2⟩
          · exact Or.inr h1.symm

/-- C3, witness: a concrete instance — bucket `[⟨"a/", 0⟩]`, path `"a"`,
least matching key `"a/"` — where the characterization yields
`IsDir = true`. -/
theorem claim_C3_witness : IsDir [⟨"a/", 0⟩] "a" = true := by
  have h := ((claim_C3 [⟨"a/", 0⟩] "a" (by decide)).2 (by decide)).2
    "a/" (by decide) (by decide)
  exact h.mpr (by decide)

/-- C4, counterexample: the bucket holding the single zero-size object
`foo` (the state an upload of an empty local file `foo` leaves behind)
satisfies the claimed precondition — `foo` denotes neither a directory
nor a file — yet after `mkdir` creates the marker `foo/`,
`IsDirectory "foo"` is still false: the sorted prefix listing now starts
with the key `foo`, not the marker. -/
theorem claim_C4_cex :
    IsDir [⟨"foo", 0⟩] "foo" = false ∧ IsFile [⟨"foo", 0⟩] "foo" = false ∧
    mkdir [⟨"foo", 0⟩] "" "foo" = .ok [⟨"foo", 0⟩, ⟨"foo/", 0⟩] ∧
    IsDir [⟨"foo", 0⟩, ⟨"foo/", 0⟩] "foo" = false := by decide

/-- C4 (amended): starting from a state in which no object key has `foo`
as a prefix (which implies `foo` denotes neither a directory nor a file),
`mkdir "foo"` at root creates the zero-size marker `foo/`, and afterwards
`IsDirectory "foo"` is true, `IsFile "foo"` is false and
`IsEmpty "foo"` is true; and from any state in which the precondition
fails (the name is a directory or a file), `mkdir` signals
`ObjectAlreadyExists` and creates nothing. -/
theorem claim_C4 (b : Bucket) (h : s3All b "foo" = []) :
    mkdir b "" "foo" = .ok (b ++ [⟨"foo/", 0⟩]) ∧
    IsDir (b ++ [⟨"foo/", 0⟩]) "foo" = true ∧
    IsFile (b ++ [⟨"foo/", 0⟩]) "foo" = false ∧
    DirEmpty (b ++ [⟨"foo/", 0⟩]) "foo" = .ok true ∧
    ∀ b2 : Bucket, (IsDir b2 "foo" = true ∨ IsFile b2 "foo" = true) →
      mkdir b2 "" "foo" = .error .objExists := by
  have hAP : AbsolutePath "" "foo" = some "foo" := by decide
  have hdir0 : IsDir b "foo" = false := by
    unfold IsDir
    rw [h]
    decide
  have hfile0 : IsFile b "foo" = false := by
    unfold IsFile
    rw [h]
    rfl
  have hs3 : s3All (b ++ [⟨"foo/", 0⟩]) "foo" = [⟨"foo/", 0⟩] := by
    unfold s3All at h ⊢
    rw [List.filter_append, h]
    decide
  have hfil : b.filter (fun o => !(o.key == "foo/")) = b := by
    apply List.filter_eq_self.mpr
    intro o ho
    simp only [Bool.not_eq_eq_eq_not, Bool.not_true, beq_eq_false_iff_ne, ne_eq]
    intro hkey
    unfold s3All at h
    have h2 := List.filter_eq_nil_iff.mp h o ho
    apply h2
    rw [hkey]
    decide
  refine ⟨?_, ?_, ?_, ?_, ?_⟩
  · unfold mkdir
    simp only [hAP]
    simp only [hdir0, hfile0, Bool.not_false, Bool.and_self, if_true]
    unfold putObj
    rw [show ("foo" : String) ++ "/" = "foo/" from rfl, hfil]
  · unfold IsDir
    rw [hs3]
    decide
  · unfold IsFile
    rw [hs3]
    rfl
  · have hdir1 : IsDir (b ++ [⟨"foo/", 0⟩]) "foo" = true := by
      unfold IsDir
      rw [hs3]
      decide
    unfold DirEmpty
    rw [hdir1, if_pos rfl, hs3]
    rfl
  · intro b2 hb2
    unfold mkdir
    simp only [hAP]
    rcases hb2 with h2 | h2
    · rw [h2]
      simp
    · rw [h2]
      simp

/-- C4, witness: the amended theorem applied to the concrete bucket
`[⟨"bar", 3⟩]` (no key has `foo` as a prefix). -/
theorem claim_C4_witness :
    mkdir [⟨"bar", 3⟩] "" "foo" = .ok [⟨"bar", 3⟩, ⟨"foo/", 0⟩] ∧
    IsDir [⟨"bar", 3⟩, ⟨"foo/", 0⟩] "foo" = true ∧
    IsFile [⟨"bar", 3⟩, ⟨"foo/", 0⟩] "foo" = false ∧
    DirEmpty [⟨"bar", 3⟩, ⟨"foo/", 0⟩] "foo" = .ok true := by
  obtain ⟨h1, h2, h3, h4, -⟩ := claim_C4 [⟨"bar", 3⟩] (by decide)
  exact ⟨h1, h2, h3, h4⟩

/-- C5 (confirmed): when `foo` is a directory whose marker `foo/` is
stored and the bucket also holds `foo/bar.txt` of positive size,
`rmdir "foo"` at root signals `DirectoryNotEmpty` (the error is raised
before any deletion, so the bucket is unchanged); and when `foo` is not a
directory at all, `rmdir` signals `NoSuchDirectory`, also deleting
nothing. -/
theorem claim_C5 (b : Bucket) (s : Nat) :
    (IsDir b "foo" = true → (⟨"foo/", 0⟩ : S3Object) ∈ b →
      (⟨"foo/bar.txt", s⟩ : S3Object) ∈ b → 0 < s →
      rmdir b "" "foo" = .error .dirNotEmpty) ∧
    (IsDir b "foo" = false → rmdir b "" "foo" = .error .noSuchDir) := by
  have hAP : AbsolutePath "" "foo" = some "foo" := by decide
  refine ⟨?_, ?_⟩
  · intro hdir hmark hbar hs
    have hpred : leadsIn "foo".data ("foo/bar.txt" : String).data = true := by decide
    have hbar_all : (⟨"foo/bar.txt", s⟩ : S3Object) ∈ s3All b "foo" := by
      unfold s3All
      rw [List.mem_filter]
      exact ⟨hbar, hpred⟩
    have hde : DirEmpty b "foo" = .ok false := by
      unfold DirEmpty
      rw [hdir, if_pos rfl]
      cases hs3 : s3All b "foo" with
      | nil =>
        rw [hs3] at hbar_all
        simp at hbar_all
      | cons o os =>
        cases os with
        | nil =>
          have hoeq : (⟨"foo/bar.txt", s⟩ : S3Object) = o := by
            rw [hs3] at hbar_all
            simpa using hbar_all
          have hsz : o.size = s := by rw [← hoeq]
          show (Except.ok (decide (o.size = 0)) : Except S3Err Bool) = .ok false
          rw [hsz]
          have hdz : decide (s = 0) = false := by
            simp only [decide_eq_false_iff_not]
            omega
          rw [hdz]
        | cons o2 os2 => rfl
    unfold rmdir
    simp only [hAP]
    rw [hdir, if_pos rfl, hde]
  · intro hdir0
    unfold rmdir
    simp only [hAP]
    rw [hdir0]
    rfl

/-- C5, witness: the theorem applied to the concrete bucket holding the
marker `foo/` and `foo/bar.txt` (first part), and to a bucket where
`foo` is not a directory (second part). -/
theorem claim_C5_witness :
    rmdir [⟨"foo/", 0⟩, ⟨"foo/bar.txt", 3⟩] "" "foo" = .error .dirNotEmpty ∧
    rmdir [⟨"bar", 1⟩] "" "foo" = .error .noSuchDir :=
  ⟨(claim_C5 [⟨"foo/", 0⟩, ⟨"foo/bar.txt", 3⟩] 3).1 (by decide) (by decide)
      (by decide) (by decide),
    (claim_C5 [⟨"bar", 1⟩] 3).2 (by decide)⟩

/-- C6 (confirmed): when the only object whose key has `foo` as a prefix
is the zero-size marker `foo/`, `delete "foo"` at root signals
`IsADirectory` without deleting; when no object matches the path at all
it signals `NoSuchObject`; and in general `delete` succeeds (returns a
new bucket) only when `IsFile` holds at the normalized path. -/
theorem claim_C6 (b : Bucket) :
    (s3All b "foo" = [⟨"foo/", 0⟩] → delete b "" "foo" = .error .isADir) ∧
    (s3All b "foo" = [] → delete b "" "foo" = .error .noSuchObject) ∧
    (∀ cwd f b2, delete b cwd f = .ok b2 →
      ∃ rp, AbsolutePath cwd f = some rp ∧ IsFile b rp = true) := by
  have hAP : AbsolutePath "" "foo" = some "foo" := by decide
  refine ⟨?_, ?_, ?_⟩
  · intro h
    have hfile0 : IsFile b "foo" = false := by
      unfold IsFile
      rw [h]
      rfl
    have hdir1 : IsDir b "foo" = true := by
      unfold IsDir
      rw [h]
      decide
    unfold delete
    simp only [hAP]
    rw [hfile0]
    simp only [Bool.false_eq_true, if_false]
    rw [hdir1]
    rfl
  · intro h
    have hfile0 : IsFile b "foo" = false := by
      unfold IsFile
      rw [h]
      rfl
    have hdir0 : IsDir b "foo" = false := by
      unfold IsDir
      rw [h]
      decide
    unfold delete
    simp only [hAP]
    rw [hfile0]
    simp only [Bool.false_eq_true, if_false]
    rw [hdir0]
    rfl
  · intro cwd f b2 hok
    unfold delete at hok
    split at hok
    · exact absurd hok (by simp)
    · rename_i rp hap
      split at hok
      · rename_i hfile
        exact ⟨rp, hap, hfile⟩
      · split at hok
        · exact absurd hok (by simp)
        · exact absurd hok (by simp)

/-- C6, witness: the theorem applied to the marker-only bucket and to the
empty bucket. -/
theorem claim_C6_witness :
    delete [⟨"foo/", 0⟩] "" "foo" = .error .isADir ∧
    delete ([] : Bucket) "" "foo" = .error .noSuchObject :=
  ⟨(claim_C6 [⟨"foo/", 0⟩]).1 (by decide), (claim_C6 []).2.1 (by decide)⟩

/-- C7, counterexample: with the non-root working directory `"a"` and
input `"x"`, `AbsolutePath` yields `"a/x"`, but applying it again yields
`"a/a/x"`: the result carries no leading separator, so the second call
treats it as relative and prefixes the working directory again. -/
theorem claim_C7_cex :
    AbsolutePath "a" "x" = some "a/x" ∧
    AbsolutePath "a" (("a/x" : String)) = some "a/a/x" ∧
    (some ("a/a/x" : String)) ≠ some ("a/x" : String) := by decide

/-- C7 (amended): normalization is idempotent at the root working
directory: when `cwd` is the root (empty string), the input contains no
backslash, and the first application does not collapse to the root,
applying `AbsolutePath` to its own result returns it unchanged.  (For a
non-root `cwd` the law fails, since the result lacks a leading separator
and the second call prefixes `cwd` again; a backslash or a root result
can also break it.) -/
theorem claim_C7 (x r : String) (h : AbsolutePath "" x = some r) (hr : r ≠ "")
    (hb : ∀ a ∈ x.data, a ≠ '\\') : AbsolutePath "" r = some r :=
  absPath_root_idem h hr hb

/-- C7, witness: the idempotence law at the concrete input `"b/./c"`,
whose normalization is `"b/c"`. -/
theorem claim_C7_witness : AbsolutePath "" "b/c" = some "b/c" :=
  claim_C7 "b/./c" "b/c" (by decide) (by decide) (by decide)

/-- C8, counterexample: `AbsolutePath` applied to the empty input string
raises an out-of-bounds `IndexError` (modelled as `none`): the
position-0 test `f[0]` is evaluated before anything else and the code
does not guard it, so empty input is not treated as denoting the working
directory. -/
theorem claim_C8_cex : AbsolutePath "a" "" = none := rfl

/-- C8 (amended): the character-at-position-0 test is safe for every
nonempty input string — `AbsolutePath` returns a result for every input
other than the empty string; the empty string is the one input on which
it raises, so callers must guard against it. -/
theorem claim_C8 (cwd f : String) (h : f ≠ "") :
    (AbsolutePath cwd f).isSome = true := by
  obtain ⟨d⟩ := f
  cases d with
  | nil => exact absurd rfl h
  | cons c t => simp [AbsolutePath]

/-- C8, witness: a result exists for the concrete nonempty input `"x"`. -/
theorem claim_C8_witness : (AbsolutePath "a" "x").isSome = true :=
  claim_C8 "a" "x" (by decide)

/-- C9 (confirmed): expanding the patterns `["*.txt", "a.*"]` against the
listing `["a.txt", "b.txt", "a.log"]` yields exactly
`["a.txt", "b.txt", "a.txt", "a.log"]`; in general the expansion
processes each pattern in argument order, contributing its matches in
listing order (duplicates across patterns kept), and a pattern matching
zero entries contributes nothing and signals no error. -/
theorem claim_C9 :
    Expand ["*.txt", "a.*"] ["a.txt", "b.txt", "a.log"]
      = ["a.txt", "b.txt", "a.txt", "a.log"] ∧
    (∀ p ps listing, Expand (p :: ps) listing =
      fnmatchFilter listing p ++ Expand ps listing) ∧
    (∀ pats listing pat, fnmatchFilter listing pat = [] →
      Expand (pats ++ [pat]) listing = Expand pats listing) := by
  refine ⟨by decide, ?_, ?_⟩
  · intro p ps listing
    rfl
  · intro pats listing pat h
    unfold Expand
    rw [List.map_append, List.flatten_append]
    simp [h]

/-- C10, counterexample: the bucket `[⟨"x", 5⟩]` is reachable from the
empty bucket by one `put`, and in it the root path `""` is classified as
both a file (`IsFile` sees exactly one object of positive size under the
empty prefix) and a directory (the root is always a directory). -/
theorem claim_C10_cex :
    Reachable [⟨"x", 5⟩] ∧ IsFile [⟨"x", 5⟩] "" = true ∧
      IsDir [⟨"x", 5⟩] "" = true := by
  refine ⟨?_, by decide, by decide⟩
  exact Reachable.put [] "x" 5 Reachable.empty (by decide)

/-- C10 (amended): in every storage state reachable from the empty
bucket by the sequencer's mutating operations — with `put` writing keys
that never end in the separator, as the claim assumes — no canonical
path other than the root is classified as both a file and a directory.
(At the root the claim fails: a bucket holding exactly one object of
positive size makes `IsFile ""` and `IsDir ""` both true.) -/
theorem claim_C10 (b : Bucket) (hreach : Reachable b) (p : String)
    (hp : p ≠ "") : ¬(IsFile b p = true ∧ IsDir b p = true) :=
  keysOk_not_file_and_dir (reach_keysOk hreach) hp

/-- C10, witness: the invariant at the reachable bucket `[⟨"x", 5⟩]` and
the nonempty path `"x"`. -/
theorem claim_C10_witness :
    ¬(IsFile [⟨"x", 5⟩] "x" = true ∧ IsDir [⟨"x", 5⟩] "x" = true) :=
  claim_C10 [⟨"x", 5⟩] (Reachable.put [] "x" 5 Reachable.empty (by decide))
    "x" (by decide)

end Cftp
